import Mathlib

/-!
Shallow embedding of the prediction-market core of `src/PredictionView.ts`
(class `MarketLogic` and the load/UI glue of class `PredictionView`).

JavaScript `number` arithmetic is modelled over `ℝ`:
`Math.log2 x` becomes `Real.logb 2 x` and `Math.pow 2 x` becomes the real
power `(2 : ℝ) ^ x`.  The `Map<number, Bet>` ledger is modelled as an
association list `List (Nat × Bet)` with JavaScript `Map` semantics:
`set` replaces the value in place when the key is present and appends
otherwise, `size` is the number of entries, and iteration follows list
order.  Mutation of `this.pool` / `this.bets` is modelled by explicit
state passing on the `MarketLogic` record; a method that can `throw`
returns `Except String`.
-/

namespace Prediction

/-- Trade direction, source type YES or NO. -/
inductive Direction where
  | YES : Direction
  | NO : Direction
deriving DecidableEq, BEq

/-- The `size` field of a bet: mana amount plus direction. -/
structure BetSize where
  mana : ℝ
  direction : Direction

/-- Interface `Bet` of `PredictionView.ts`. -/
structure Bet where
  timestamp : String
  size : BetSize
  comment : Option String
  sharesReceived : ℝ
  log2oddsBefore : ℝ
  log2oddsAfter : ℝ

/-- State of class `MarketLogic`: the pool `[yes, no]`, the invariant
constant `k`, and the bet ledger `Map<number, Bet>` as an association
list in insertion order. -/
structure MarketLogic where
  pool : ℝ × ℝ
  k : ℝ
  bets : List (Nat × Bet)

/-- The `MarketLogic` constructor: pool `[512, 512]`,
`k = log2(pool[0]) * log2(pool[1])`, empty ledger. -/
noncomputable def MarketLogic.init : MarketLogic :=
  { pool := (512, 512)
    k := Real.logb 2 512 * Real.logb 2 512
    bets := [] }

/-- Embedding of `MarketLogic.poolBet` as a pure function of the pool and `k`:
adds `amount` to both sides, then restores the invariant on the side
selected by `flip`, returning the new pool and the shares issued. -/
noncomputable def poolBet (pool : ℝ × ℝ) (k : ℝ) (amount : ℝ) (flip : Bool) :
    (ℝ × ℝ) × ℝ :=
  let y := pool.1 + amount
  let n := pool.2 + amount
  if !flip then
    let niy := k / Real.logb 2 n
    let newY := (2 : ℝ) ^ niy
    ((newY, n), y - newY)
  else
    let nin := k / Real.logb 2 y
    let newN := (2 : ℝ) ^ nin
    ((y, newN), n - newN)

/-- Embedding of `MarketLogic.computeState` as a pure function of the pool.
Returns `(log2odds, probability)`. -/
noncomputable def computeState (pool : ℝ × ℝ) : ℝ × ℝ :=
  let logY := Real.logb 2 pool.1
  let logN := Real.logb 2 pool.2
  let probability := (pool.2 * logN) / (pool.2 * logN + pool.1 * logY)
  let log2odds := Real.logb 2 (probability / (1 - probability))
  (log2odds, probability)

/-- JavaScript `Map.get` on the association-list model: the value stored
under key `key`, if any. -/
def mapFind (l : List (Nat × Bet)) (key : Nat) : Option Bet :=
  (l.find? (fun p => p.1 == key)).map Prod.snd

/-- JavaScript `Map.set` on the association-list model: replace the value
in place when the key is present, append a new entry otherwise. -/
def mapSet (l : List (Nat × Bet)) (key : Nat) (v : Bet) : List (Nat × Bet) :=
  match l with
  | [] => [(key, v)]
  | (k, w) :: rest =>
      if k = key then (key, v) :: rest else (k, w) :: mapSet rest key v

/-- Embedding of `MarketLogic.placeBet`: stores a fresh bet under key `this.bets.size`.
`now` models the ambient clock used when `timestamp` is omitted
(`timestamp ?? new Date().toISOString()`).  Returns the new bet and the
updated state. -/
def MarketLogic.placeBet (m : MarketLogic) (amount : ℝ) (direction : Direction)
    (comment : Option String) (timestamp : Option String) (now : String) :
    Bet × MarketLogic :=
  let lt := m.bets.length
  let bet : Bet :=
    { timestamp := timestamp.getD now
      size := { mana := amount, direction := direction }
      comment := comment
      sharesReceived := 0
      log2oddsBefore := 0
      log2oddsAfter := 0 }
  (bet, { m with bets := mapSet m.bets lt bet })

/-- Embedding of `MarketLogic.updateBet`: throws the error `Bet not found` when the key is
absent; otherwise overwrites the `size.mana`,
`size.direction` and `comment` in place and returns the updated record. -/
def MarketLogic.updateBet (m : MarketLogic) (lt : Nat) (amount : ℝ)
    (direction : Direction) (comment : Option String) :
    Except String (Bet × MarketLogic) :=
  match mapFind m.bets lt with
  | none => .error "Bet not found"
  | some bet =>
      let bet' : Bet :=
        { bet with size := { mana := amount, direction := direction }
                   comment := comment }
      .ok (bet', { m with bets := mapSet m.bets lt bet' })

/-- The state after a (possibly failing) `updateBet` call: on the
not-found error the exception aborts the call before any mutation, so the state
is unchanged. -/
def applyAmend (m : MarketLogic) (lt : Nat) (amount : ℝ) (direction : Direction)
    (comment : Option String) : MarketLogic :=
  match m.updateBet lt amount direction comment with
  | .ok r => r.2
  | .error _ => m

/-- Insert an entry into a list sorted by ascending key. -/
def insertByKey (p : Nat × Bet) : List (Nat × Bet) → List (Nat × Bet)
  | [] => [p]
  | q :: rest => if p.1 ≤ q.1 then p :: q :: rest else q :: insertByKey p rest

/-- Embedding of `Array.from(this.bets.entries()).sort(...)` with the
ascending comparator: the ledger
entries sorted by ascending key (keys are distinct, so any correct sort
agrees; insertion sort is used here). -/
def sortByKey : List (Nat × Bet) → List (Nat × Bet)
  | [] => []
  | p :: rest => insertByKey p (sortByKey rest)

/-- Loop state of `MarketLogic.replay`: current pool, accumulated YES and
NO shares, accumulated mana delta, and the annotated bets emitted so far. -/
structure ReplayState where
  pool : ℝ × ℝ
  sy : ℝ
  sn : ℝ
  mana : ℝ
  out : List Bet

/-- The body of the loop inside `replay`, folded over the sorted entries. -/
noncomputable def replayLoop (k : ℝ) : ReplayState → List (Nat × Bet) → ReplayState
  | st, [] => st
  | st, (_, bet) :: rest =>
      let oddsBefore := (computeState st.pool).1
      let amount := bet.size.mana
      let flip := bet.size.direction == Direction.NO
      let res := poolBet st.pool k |amount| flip
      let shares := res.2
      let oddsAfter := (computeState res.1).1
      let st' : ReplayState :=
        { pool := res.1
          sy := if flip then st.sy else st.sy + shares
          sn := if flip then st.sn + shares else st.sn
          mana := if flip then st.mana + amount else st.mana - amount
          out := st.out ++
            [{ bet with sharesReceived := shares
                        log2oddsBefore := oddsBefore
                        log2oddsAfter := oddsAfter }] }
      replayLoop k st' rest

/-- Return type of `MarketLogic.replay`. -/
structure ReplayResult where
  yesShares : ℝ
  noShares : ℝ
  mana : ℝ
  bets : List Bet

/-- Embedding of `MarketLogic.replay`: reset the pool to `[512, 512]`, fold every
ledger entry in ascending key order, then net the smaller share total
against the larger.  Returns the result together with the post-call
state (the pool mutated by the loop; `k` and `bets` untouched). -/
noncomputable def MarketLogic.replay (m : MarketLogic) : ReplayResult × MarketLogic :=
  let st := replayLoop m.k ⟨(512, 512), 0, 0, 0, []⟩ (sortByKey m.bets)
  let redeemed := min st.sy st.sn
  (⟨st.sy - redeemed, st.sn - redeemed, st.mana, st.out⟩,
    { m with pool := st.pool })

/-- The `pool` field of interface `MarketData`. -/
structure PoolData where
  yesShares : ℝ
  noShares : ℝ
  k : ℝ

/-- Interface `MarketData` (the persisted `MarketSnapshot`). -/
structure MarketData where
  name : String
  bets : List Bet
  pool : PoolData
  log2odds : ℝ
  userShares : ℝ
  resolution : Option Direction

/-- The fresh-market default installed by the catch branch of `setViewData`. -/
noncomputable def defaultMarketData : MarketData :=
  { name := "Prediction Market"
    bets := []
    pool := { yesShares := 512, noShares := 512
              k := Real.logb 2 512 * Real.logb 2 512 }
    log2odds := 0
    userShares := 0
    resolution := none }

/-- Embedding of the load path of `PredictionView.setViewData`, with the outcome of
deserializing the document modelled as `Option MarketData` (`none` when
`JSON.parse` throws, returns a falsy value, or the parsed value cannot be
used as a `MarketSnapshot`).  On success the ledger is reconstructed by
`placeBet` for every entry in document order; on failure the fresh-market
default and a fresh `MarketLogic` are installed.  Total: no exception
escapes. -/
noncomputable def setViewData (parsed : Option MarketData) (now : String) :
    MarketData × MarketLogic :=
  match parsed with
  | some mkt =>
      let logic := mkt.bets.foldl
        (fun lg bet =>
          (lg.placeBet bet.size.mana bet.size.direction bet.comment
            (some bet.timestamp) now).2)
        MarketLogic.init
      (mkt, logic)
  | none => (defaultMarketData, MarketLogic.init)

/-- The `betButton` click handler of `drawMe`: rejects a non-positive
amount before calling `placeBet` (`NaN` is not representable in the real
model).  Returns the (possibly unchanged) logic state. -/
noncomputable def betButtonClick (m : MarketLogic) (amount : ℝ)
    (direction : Direction) (comment : Option String) (now : String) :
    MarketLogic :=
  if amount ≤ 0 then m else (m.placeBet amount direction comment none now).2

/-- The `saveButton` click handler of `showEditForm`: rejects a
non-positive amount before calling `updateBet`. -/
noncomputable def saveButtonClick (m : MarketLogic) (index : Nat) (amount : ℝ)
    (direction : Direction) (comment : Option String) : MarketLogic :=
  if amount ≤ 0 then m else applyAmend m index amount direction comment

end Prediction

namespace Prediction

/-- C1: a BUY_YES trade (`flip = false`, as `replay` sets
`flip` set when the direction is NO) fixes the NO side at `n + a` and rewrites
the YES side to `2 ^ (k / log2 (n + a))`, issuing `(y + a)` minus the new
YES side; a BUY_NO trade (`flip = true`) is symmetric. -/
theorem poolBet_formula (y n k a : ℝ) (hy : 0 < y) (hn : 0 < n) (ha : 0 < a) :
    poolBet (y, n) k a false =
      (((2 : ℝ) ^ (k / Real.logb 2 (n + a)), n + a),
        (y + a) - (2 : ℝ) ^ (k / Real.logb 2 (n + a))) ∧
    poolBet (y, n) k a true =
      ((y + a, (2 : ℝ) ^ (k / Real.logb 2 (y + a))),
        (n + a) - (2 : ℝ) ^ (k / Real.logb 2 (y + a))) := by
  constructor <;> rfl

/-- Witness for `poolBet_formula` at the genesis pool with `a = 100`. -/
theorem poolBet_formula_witness :
    poolBet (512, 512) 81 100 false =
      (((2 : ℝ) ^ ((81 : ℝ) / Real.logb 2 (512 + 100)), 512 + 100),
        (512 + 100) - (2 : ℝ) ^ ((81 : ℝ) / Real.logb 2 (512 + 100))) ∧
    poolBet (512, 512) 81 100 true =
      ((512 + 100, (2 : ℝ) ^ ((81 : ℝ) / Real.logb 2 (512 + 100))),
        (512 + 100) - (2 : ℝ) ^ ((81 : ℝ) / Real.logb 2 (512 + 100))) :=
  poolBet_formula 512 512 81 100 (by norm_num) (by norm_num) (by norm_num)

/-- C3: `computeState` returns
`probability = n*log2(n) / (n*log2(n) + y*log2(y))` (with the NO-side
pool/log product in the numerator) and
`log2odds = log2 (probability / (1 - probability))`. -/
theorem computeState_formula (y n : ℝ) (hy : 0 < y) (hn : 0 < n) :
    (computeState (y, n)).2 =
      (n * Real.logb 2 n) / (n * Real.logb 2 n + y * Real.logb 2 y) ∧
    (computeState (y, n)).1 =
      Real.logb 2 ((computeState (y, n)).2 / (1 - (computeState (y, n)).2)) := by
  constructor <;> rfl

/-- Witness for `computeState_formula` at the genesis pool. -/
theorem computeState_formula_witness :
    (computeState (512, 512)).2 =
      ((512 : ℝ) * Real.logb 2 512) /
        (512 * Real.logb 2 512 + 512 * Real.logb 2 512) ∧
    (computeState (512, 512)).1 =
      Real.logb 2 ((computeState (512, 512)).2 / (1 - (computeState (512, 512)).2)) :=
  computeState_formula 512 512 (by norm_num) (by norm_num)

/-- C4: `replay` is idempotent and deterministic — running it a second
time on the state it returned (no intervening `placeBet`/`updateBet`)
yields the same `ReplayResult`, field for field.  The loop reads only `k`
and `bets`, both untouched by `replay`; the mutated pool is reset at the
start of every run. -/
theorem replay_idempotent (m : MarketLogic) :
    ((m.replay).2.replay).1 = (m.replay).1 := rfl

/-- C5: the `ReplayResult` returned by `replay` always has
`min yesShares noShares = 0`: both share totals are reduced by
`min sy sn`, which zeroes the smaller side. -/
theorem replay_netting (m : MarketLogic) :
    min (m.replay).1.yesShares (m.replay).1.noShares = 0 := by
  have key : ∀ a b : ℝ, min (a - min a b) (b - min a b) = 0 := by
    intro a b
    rw [min_sub_sub_right, sub_self]
  exact key _ _

/-- C8: when the document cannot be deserialized, the load path installs
the fresh-market default — name `"Prediction Market"`, no bets, pool
`(512, 512)` with `k = log2 512 * log2 512 = 81`, `log2odds = 0`,
`userShares = 0` — together with a fresh `MarketLogic`; the embedding is
total, so no exception escapes. -/
theorem setViewData_fallback (now : String) :
    setViewData none now = (defaultMarketData, MarketLogic.init) ∧
    defaultMarketData.name = "Prediction Market" ∧
    defaultMarketData.bets = [] ∧
    defaultMarketData.pool.yesShares = 512 ∧
    defaultMarketData.pool.noShares = 512 ∧
    defaultMarketData.pool.k = 81 ∧
    defaultMarketData.log2odds = 0 ∧
    defaultMarketData.userShares = 0 := by
  have h512 : Real.logb 2 512 = 9 := by
    rw [show (512 : ℝ) = 2 ^ (9 : ℕ) by norm_num, Real.logb_pow,
      Real.logb_self_eq_one (by norm_num)]
    norm_num
  refine ⟨rfl, rfl, rfl, rfl, rfl, ?_, rfl, rfl⟩
  show Real.logb 2 512 * Real.logb 2 512 = 81
  rw [h512]; norm_num

/-- The reachability invariant of the pool: both sides exceed 1 and the
log-product equals `k`.  It holds at genesis and is restored exactly by
every `poolBet` call. -/
def PoolInv (k : ℝ) (p : ℝ × ℝ) : Prop :=
  1 < p.1 ∧ 1 < p.2 ∧ Real.logb 2 p.1 * Real.logb 2 p.2 = k

/-- One `poolBet` call on a pool satisfying the invariant, with a
non-negative amount, keeps the invariant and issues non-negative
shares. -/
theorem poolBet_preserves (k a : ℝ) (flip : Bool) (p : ℝ × ℝ)
    (hp : PoolInv k p) (ha : 0 ≤ a) :
    PoolInv k (poolBet p k a flip).1 ∧ 0 ≤ (poolBet p k a flip).2 := by
  obtain ⟨y, n⟩ := p
  obtain ⟨hy, hn, hk⟩ := hp
  simp only at hy hn hk
  have h2 : (1 : ℝ) < 2 := one_lt_two
  have hLy : 0 < Real.logb 2 y := Real.logb_pos h2 hy
  have hLn : 0 < Real.logb 2 n := Real.logb_pos h2 hn
  have hk0 : 0 < k := hk ▸ mul_pos hLy hLn
  cases flip with
  | false =>
    have hLna : Real.logb 2 n ≤ Real.logb 2 (n + a) :=
      Real.logb_le_logb_of_le h2 (by linarith) (by linarith)
    have hLnapos : 0 < Real.logb 2 (n + a) := lt_of_lt_of_le hLn hLna
    have hdiv : k / Real.logb 2 (n + a) ≤ k / Real.logb 2 n :=
      (div_le_div_iff_of_pos_left hk0 hLnapos hLn).mpr hLna
    have hky : k / Real.logb 2 n = Real.logb 2 y := by
      rw [← hk, mul_div_assoc, div_self (ne_of_gt hLn), mul_one]
    have hpow : (2 : ℝ) ^ (k / Real.logb 2 (n + a)) ≤
        (2 : ℝ) ^ (Real.logb 2 y) := by
      apply Real.rpow_le_rpow_of_exponent_le (by norm_num)
      rw [← hky]; exact hdiv
    have hylog : (2 : ℝ) ^ (Real.logb 2 y) = y :=
      Real.rpow_logb (by norm_num) (by norm_num) (by linarith)
    have hle : (2 : ℝ) ^ (k / Real.logb 2 (n + a)) ≤ y := hylog ▸ hpow
    refine ⟨⟨?_, ?_, ?_⟩, ?_⟩
    · show 1 < (2 : ℝ) ^ (k / Real.logb 2 (n + a))
      exact (Real.one_lt_rpow_iff_of_pos (by norm_num)).mpr
        (Or.inl ⟨h2, div_pos hk0 hLnapos⟩)
    · show 1 < n + a
      linarith
    · show Real.logb 2 ((2 : ℝ) ^ (k / Real.logb 2 (n + a))) *
        Real.logb 2 (n + a) = k
      rw [Real.logb_rpow (by norm_num) (by norm_num)]
      exact div_mul_cancel₀ k (ne_of_gt hLnapos)
    · show 0 ≤ (y + a) - (2 : ℝ) ^ (k / Real.logb 2 (n + a))
      linarith
  | true =>
    have hLya : Real.logb 2 y ≤ Real.logb 2 (y + a) :=
      Real.logb_le_logb_of_le h2 (by linarith) (by linarith)
    have hLyapos : 0 < Real.logb 2 (y + a) := lt_of_lt_of_le hLy hLya
    have hdiv : k / Real.logb 2 (y + a) ≤ k / Real.logb 2 y :=
      (div_le_div_iff_of_pos_left hk0 hLyapos hLy).mpr hLya
    have hkn : k / Real.logb 2 y = Real.logb 2 n := by
      rw [← hk, mul_comm, mul_div_assoc, div_self (ne_of_gt hLy), mul_one]
    have hpow : (2 : ℝ) ^ (k / Real.logb 2 (y + a)) ≤
        (2 : ℝ) ^ (Real.logb 2 n) := by
      apply Real.rpow_le_rpow_of_exponent_le (by norm_num)
      rw [← hkn]; exact hdiv
    have hnlog : (2 : ℝ) ^ (Real.logb 2 n) = n :=
      Real.rpow_logb (by norm_num) (by norm_num) (by linarith)
    have hle : (2 : ℝ) ^ (k / Real.logb 2 (y + a)) ≤ n := hnlog ▸ hpow
    refine ⟨⟨?_, ?_, ?_⟩, ?_⟩
    · show 1 < y + a
      linarith
    · show 1 < (2 : ℝ) ^ (k / Real.logb 2 (y + a))
      exact (Real.one_lt_rpow_iff_of_pos (by norm_num)).mpr
        (Or.inl ⟨h2, div_pos hk0 hLyapos⟩)
    · show Real.logb 2 (y + a) *
        Real.logb 2 ((2 : ℝ) ^ (k / Real.logb 2 (y + a))) = k
      rw [Real.logb_rpow (by norm_num) (by norm_num), mul_comm]
      exact div_mul_cancel₀ k (ne_of_gt hLyapos)
    · show 0 ≤ (n + a) - (2 : ℝ) ^ (k / Real.logb 2 (y + a))
      linarith

/-- The pool trajectory of `replay`: starting from the genesis pool,
apply `poolBet` with the genesis `k` and `Math.abs` of each trade
amount, flipping per trade, exactly as the `replay` loop does. -/
noncomputable def runTrades (trades : List (ℝ × Bool)) : ℝ × ℝ :=
  trades.foldl (fun pool t => (poolBet pool MarketLogic.init.k |t.1| t.2).1)
    (512, 512)

/-- Folding any trade list preserves the pool invariant. -/
theorem foldTrades_inv (trades : List (ℝ × Bool)) (p : ℝ × ℝ)
    (hp : PoolInv MarketLogic.init.k p) :
    PoolInv MarketLogic.init.k
      (trades.foldl
        (fun pool t => (poolBet pool MarketLogic.init.k |t.1| t.2).1) p) := by
  induction trades generalizing p with
  | nil => exact hp
  | cons t ts ih =>
    exact ih _ (poolBet_preserves _ _ _ _ hp (abs_nonneg _)).1

/-- Every pool reachable from genesis satisfies the invariant. -/
theorem runTrades_inv (trades : List (ℝ × Bool)) :
    PoolInv MarketLogic.init.k (runTrades trades) := by
  refine foldTrades_inv trades (512, 512) ⟨?_, ?_, rfl⟩ <;> norm_num

/-- C2: on any pool reached from genesis by prior trades (so both sides
exceed 1), a trade of positive amount issues non-negative shares. -/
theorem shares_issued_nonneg (trades : List (ℝ × Bool)) (a : ℝ) (flip : Bool)
    (ha : 0 < a) (h1 : 1 < (runTrades trades).1)
    (h2 : 1 < (runTrades trades).2) :
    0 ≤ (poolBet (runTrades trades) MarketLogic.init.k a flip).2 :=
  (poolBet_preserves _ _ _ _ (runTrades_inv trades) (le_of_lt ha)).2

/-- Witness for `shares_issued_nonneg`: a first trade of amount 1 on the
genesis pool. -/
theorem shares_issued_nonneg_witness :
    0 ≤ (poolBet (runTrades []) MarketLogic.init.k 1 false).2 :=
  shares_issued_nonneg [] 1 false (by norm_num)
    (by show (1 : ℝ) < 512; norm_num) (by show (1 : ℝ) < 512; norm_num)

/-- The record produced by `updateBet` for a stored bet: amount,
direction and comment overwritten, every other field carried over. -/
def amendBet (bet : Bet) (a : ℝ) (d : Direction) (c : Option String) : Bet :=
  { bet with size := { mana := a, direction := d }, comment := c }

/-- C6 counterexample: the core itself does not refuse non-positive
amounts — `placeBet` with amount `-1` mutates the ledger and records a
trade whose amount is non-positive. -/
theorem placeBet_accepts_nonpositive :
    ((-1 : ℝ) ≤ 0) ∧
    ((MarketLogic.init.placeBet (-1) Direction.YES none none "t").2.bets.map
        (fun p => p.2.size.mana) = [(-1 : ℝ)]) ∧
    (MarketLogic.init.placeBet (-1) Direction.YES none none "t").2.bets ≠
      MarketLogic.init.bets := by
  refine ⟨by norm_num, rfl, ?_⟩
  simp [MarketLogic.placeBet, MarketLogic.init, mapSet]

/-- C6 (amended): non-positive amounts are rejected before any ledger
mutation by the view-layer click handlers (`betButton` in `drawMe`,
`saveButton` in `showEditForm`), which guard every call into
`placeBet`/`updateBet`; the core methods themselves do not check. -/
theorem ui_rejects_nonpositive (m : MarketLogic) (amount : ℝ) (d : Direction)
    (c : Option String) (now : String) (index : Nat) (h : amount ≤ 0) :
    betButtonClick m amount d c now = m ∧
    saveButtonClick m index amount d c = m := by
  constructor <;> simp [betButtonClick, saveButtonClick, h]

/-- Witness for `ui_rejects_nonpositive` at amount `-1`. -/
theorem ui_rejects_nonpositive_witness :
    betButtonClick MarketLogic.init (-1) Direction.YES none "t" =
      MarketLogic.init ∧
    saveButtonClick MarketLogic.init 0 (-1) Direction.YES none =
      MarketLogic.init :=
  ui_rejects_nonpositive MarketLogic.init (-1) Direction.YES none "t" 0
    (by norm_num)

/-- C7: `updateBet` on an absent id fails with the not-found
error and performs no mutation (the state is unchanged, so a subsequent
`replay` returns the same result); on a present id it overwrites that
stored amount, direction and comment in place and returns the updated
record. -/
theorem updateBet_spec (m : MarketLogic) (lt : Nat) (a : ℝ) (d : Direction)
    (c : Option String) :
    (mapFind m.bets lt = none →
      m.updateBet lt a d c = .error "Bet not found" ∧
      applyAmend m lt a d c = m ∧
      ((applyAmend m lt a d c).replay).1 = (m.replay).1) ∧
    (∀ bet, mapFind m.bets lt = some bet →
      m.updateBet lt a d c =
        .ok (amendBet bet a d c,
          { m with bets := mapSet m.bets lt (amendBet bet a d c) })) := by
  constructor
  · intro h
    have h1 : m.updateBet lt a d c = .error "Bet not found" := by
      simp [MarketLogic.updateBet, h]
    have h2 : applyAmend m lt a d c = m := by
      simp [applyAmend, h1]
    exact ⟨h1, h2, by rw [h2]⟩
  · intro bet h
    simp [MarketLogic.updateBet, amendBet, h]

/-- Witness for `updateBet_spec`: amending id 0 of the empty ledger
fails with the not-found error and leaves the state unchanged. -/
theorem updateBet_spec_witness :
    MarketLogic.init.updateBet 0 2 Direction.YES none =
      .error "Bet not found" ∧
    applyAmend MarketLogic.init 0 2 Direction.YES none = MarketLogic.init := by
  have h := (updateBet_spec MarketLogic.init 0 2 Direction.YES none).1 rfl
  exact ⟨h.1, h.2.1⟩

/-- C10: `updateBet` on a present id changes only the amount, the
direction and the comment: the stored timestamp and the derived fields
(`sharesReceived`, `log2oddsBefore`, `log2oddsAfter`) are carried over
unchanged, while the comment is overwritten with the supplied argument —
in particular an omitted comment (`none`) erases the prior one. -/
theorem updateBet_frame (m : MarketLogic) (lt : Nat) (a : ℝ) (d : Direction)
    (c : Option String) (bet : Bet) (h : mapFind m.bets lt = some bet) :
    ∀ bet2 m2, m.updateBet lt a d c = .ok (bet2, m2) →
      bet2.timestamp = bet.timestamp ∧
      bet2.sharesReceived = bet.sharesReceived ∧
      bet2.log2oddsBefore = bet.log2oddsBefore ∧
      bet2.log2oddsAfter = bet.log2oddsAfter ∧
      bet2.size.mana = a ∧
      bet2.size.direction = d ∧
      bet2.comment = c := by
  intro bet2 m2 hok
  simp [MarketLogic.updateBet, h] at hok
  rcases hok with ⟨h1, h2⟩
  subst h1
  exact ⟨rfl, rfl, rfl, rfl, rfl, rfl, rfl⟩

/-- Concrete single-bet state used to witness `updateBet_frame`. -/
def wBet0 : Bet :=
  { timestamp := "t", size := { mana := 5, direction := Direction.NO }
    comment := some "hello", sharesReceived := 0
    log2oddsBefore := 0, log2oddsAfter := 0 }

/-- The ledger state holding `wBet0` under id 0. -/
noncomputable def wM1 : MarketLogic :=
  (MarketLogic.init.placeBet 5 Direction.NO (some "hello") none "t").2

/-- The bet expected after amending `wBet0` to `(2, YES, no comment)`. -/
def wBet1 : Bet :=
  { timestamp := "t", size := { mana := 2, direction := Direction.YES }
    comment := none, sharesReceived := 0
    log2oddsBefore := 0, log2oddsAfter := 0 }

/-- The state expected after that amendment. -/
noncomputable def wM2 : MarketLogic :=
  { wM1 with bets := mapSet wM1.bets 0 wBet1 }

/-- Witness for `updateBet_frame`: amending the single stored bet keeps
its timestamp and derived fields, and erases the prior comment
`some "hello"` when the comment argument is omitted. -/
theorem updateBet_frame_witness :
    wBet1.timestamp = wBet0.timestamp ∧
    wBet1.sharesReceived = wBet0.sharesReceived ∧
    wBet1.log2oddsBefore = wBet0.log2oddsBefore ∧
    wBet1.log2oddsAfter = wBet0.log2oddsAfter ∧
    wBet1.size.mana = 2 ∧
    wBet1.size.direction = Direction.YES ∧
    wBet1.comment = none ∧
    wBet0.comment = some "hello" := by
  have h := updateBet_frame wM1 0 2 Direction.YES none wBet0 rfl wBet1 wM2 rfl
  exact ⟨h.1, h.2.1, h.2.2.1, h.2.2.2.1, h.2.2.2.2.1, h.2.2.2.2.2.1,
    h.2.2.2.2.2.2, rfl⟩

/-- A core ledger operation: `placeBet` (with its ambient clock) or an
`updateBet` attempt. -/
inductive Op where
  | place (amount : ℝ) (direction : Direction) (comment : Option String)
      (timestamp : Option String) (now : String)
  | amend (lt : Nat) (amount : ℝ) (direction : Direction)
      (comment : Option String)

/-- Apply one ledger operation to the state. -/
def applyOp (m : MarketLogic) : Op → MarketLogic
  | .place a d c t now => (m.placeBet a d c t now).2
  | .amend lt a d c => applyAmend m lt a d c

/-- The state reached from the constructor by a sequence of ledger
operations. -/
noncomputable def reach (ops : List Op) : MarketLogic :=
  ops.foldl applyOp MarketLogic.init

/-- Keys contiguous from 0 in insertion order: the key list of the ledger is
exactly `range` of its size. -/
def goodKeys (m : MarketLogic) : Prop :=
  m.bets.map Prod.fst = List.range m.bets.length

/-- Calling `mapSet` with a fresh key appends. -/
theorem mapSet_of_not_mem (l : List (Nat × Bet)) (key : Nat) (v : Bet)
    (h : ∀ p ∈ l, p.1 ≠ key) : mapSet l key v = l ++ [(key, v)] := by
  induction l with
  | nil => rfl
  | cons q rest ih =>
    obtain ⟨k, w⟩ := q
    have hk : k ≠ key := h (k, w) (List.mem_cons_self _ _)
    simp [mapSet, hk, ih (fun p hp => h p (List.mem_cons_of_mem _ hp))]

/-- Calling `mapSet` with a stored key replaces in place: the key list is
unchanged. -/
theorem mapSet_keys_of_mem (l : List (Nat × Bet)) (key : Nat) (v : Bet)
    (h : key ∈ l.map Prod.fst) :
    (mapSet l key v).map Prod.fst = l.map Prod.fst := by
  induction l with
  | nil => simp at h
  | cons q rest ih =>
    obtain ⟨k, w⟩ := q
    by_cases hk : k = key
    · subst hk; simp [mapSet]
    · have hmem : key ∈ rest.map Prod.fst := by
        simpa [hk, Ne.symm hk] using h
      simp [mapSet, hk, ih hmem]

/-- A successful `mapFind` means the key is stored. -/
theorem mapFind_mem (l : List (Nat × Bet)) (key : Nat) (b : Bet)
    (h : mapFind l key = some b) : key ∈ l.map Prod.fst := by
  induction l with
  | nil => simp [mapFind] at h
  | cons q rest ih =>
    by_cases hk : q.1 = key
    · simp [hk]
    · have hr : mapFind rest key = some b := by
        unfold mapFind at h ⊢
        rw [List.find?_cons_of_neg _ (by simp [hk])] at h
        exact h
      simp [ih hr]

/-- Every ledger operation preserves key contiguity. -/
theorem goodKeys_applyOp (m : MarketLogic) (op : Op) (h : goodKeys m) :
    goodKeys (applyOp m op) := by
  cases op with
  | place a d c t now =>
    have hfresh : ∀ p ∈ m.bets, p.1 ≠ m.bets.length := by
      intro p hp
      have : p.1 ∈ m.bets.map Prod.fst := List.mem_map_of_mem _ hp
      rw [h] at this
      exact Nat.ne_of_lt (List.mem_range.mp this)
    show goodKeys { m with bets := mapSet m.bets m.bets.length _ }
    unfold goodKeys at h ⊢
    rw [mapSet_of_not_mem m.bets m.bets.length _ hfresh]
    simp [List.range_succ, h]
  | amend lt a d c =>
    show goodKeys (applyAmend m lt a d c)
    cases hfind : mapFind m.bets lt with
    | none =>
      have hid : applyAmend m lt a d c = m := by
        simp [applyAmend, MarketLogic.updateBet, hfind]
      rw [hid]; exact h
    | some bet =>
      have hmem : lt ∈ m.bets.map Prod.fst := mapFind_mem _ _ _ hfind
      have hstep : (applyAmend m lt a d c).bets =
          mapSet m.bets lt (amendBet bet a d c) := by
        simp [applyAmend, MarketLogic.updateBet, amendBet, hfind]
      have hlen : (mapSet m.bets lt (amendBet bet a d c)).length =
          m.bets.length := by
        have h2 := congrArg List.length
          (mapSet_keys_of_mem m.bets lt (amendBet bet a d c) hmem)
        simpa using h2
      unfold goodKeys at h ⊢
      rw [hstep, mapSet_keys_of_mem _ _ _ hmem, hlen]
      exact h

/-- Key contiguity holds in every reachable state. -/
theorem goodKeys_reach (ops : List Op) : goodKeys (reach ops) := by
  have base : goodKeys MarketLogic.init := rfl
  show goodKeys (ops.foldl applyOp MarketLogic.init)
  generalize MarketLogic.init = m at base ⊢
  induction ops generalizing m with
  | nil => exact base
  | cons op rest ih => exact ih _ (goodKeys_applyOp m op base)

/-- Inserting below every key of a list puts the entry in front. -/
theorem insertByKey_le (p : Nat × Bet) (l : List (Nat × Bet))
    (h : ∀ q ∈ l, p.1 ≤ q.1) : insertByKey p l = p :: l := by
  cases l with
  | nil => rfl
  | cons q rest => simp [insertByKey, h q (List.mem_cons_self _ _)]

/-- Sorting a list already in ascending key order is the identity. -/
theorem sortByKey_sorted (l : List (Nat × Bet))
    (h : l.Pairwise (fun p q => p.1 ≤ q.1)) : sortByKey l = l := by
  induction l with
  | nil => rfl
  | cons p rest ih =>
    rw [sortByKey, ih (List.Pairwise.of_cons h)]
    exact insertByKey_le p rest (List.pairwise_cons.mp h).1

/-- Contiguous keys are in ascending order. -/
theorem goodKeys_pairwise (m : MarketLogic) (h : goodKeys m) :
    m.bets.Pairwise (fun p q => p.1 ≤ q.1) := by
  have hlt : (m.bets.map Prod.fst).Pairwise (· < ·) := by
    rw [h]; exact List.pairwise_lt_range _
  exact ((List.pairwise_map).mp hlt).imp le_of_lt

/-- C9: in every reachable state, ledger keys are contiguous from 0 in
insertion order; `placeBet` always succeeds and appends its bet under the
current size; the ascending-key iteration order of `replay` is exactly the
insertion order; and an `updateBet` attempt changes no key and no
position. -/
theorem ledger_ordering (ops : List Op) :
    (reach ops).bets.map Prod.fst = List.range (reach ops).bets.length ∧
    (∀ a d c t now, ((reach ops).placeBet a d c t now).2.bets =
      (reach ops).bets ++
        [((reach ops).bets.length, ((reach ops).placeBet a d c t now).1)]) ∧
    sortByKey (reach ops).bets = (reach ops).bets ∧
    (∀ lt a d c, (applyAmend (reach ops) lt a d c).bets.map Prod.fst =
      (reach ops).bets.map Prod.fst) := by
  have hg : goodKeys (reach ops) := goodKeys_reach ops
  refine ⟨hg, ?_, ?_, ?_⟩
  · intro a d c t now
    have hfresh : ∀ p ∈ (reach ops).bets, p.1 ≠ (reach ops).bets.length := by
      intro p hp
      have : p.1 ∈ (reach ops).bets.map Prod.fst := List.mem_map_of_mem _ hp
      rw [hg] at this
      exact Nat.ne_of_lt (List.mem_range.mp this)
    exact mapSet_of_not_mem _ _ _ hfresh
  · exact sortByKey_sorted _ (goodKeys_pairwise _ hg)
  · intro lt a d c
    cases hfind : mapFind (reach ops).bets lt with
    | none =>
      have hid : applyAmend (reach ops) lt a d c = reach ops := by
        simp [applyAmend, MarketLogic.updateBet, hfind]
      rw [hid]
    | some bet =>
      have hstep : (applyAmend (reach ops) lt a d c).bets =
          mapSet (reach ops).bets lt (amendBet bet a d c) := by
        simp [applyAmend, MarketLogic.updateBet, amendBet, hfind]
      rw [hstep]
      exact mapSet_keys_of_mem _ _ _ (mapFind_mem _ _ _ hfind)

end Prediction
